import Mathlib

/-!
# Verification of the lz4-gstream framing layer (src/lib/lz4g.c)

Shallow embedding of the framed-stream encode/decode engine of `lz4g.c`.
Byte streams are `List Nat` (each element < 256 where it matters), files are
content plus a read/write position, and the output sink is a list of events
(physical writes and sparse forward seeks).  The external LZ4F streaming codec
is out of scope of the repository and is modelled from the spec as a concrete,
correct-by-construction frame codec with the partial-consumption call
interface the glue code relies on.
-/

set_option autoImplicit false

/-! ## Constants (lz4g.c lines 82-104, 123) -/

def KBc : Nat := 1024
def MBc : Nat := 1048576
def GBc : Nat := 1073741824

def MAGICNUMBER_SIZE : Nat := 4
def LZ4G_MAGICNUMBER : Nat := 0x184D2204
def LZ4G_SKIPPABLE0 : Nat := 0x184D2A50
def LZ4G_SKIPPABLEMASK : Nat := 0xFFFFFFF0
def LEGACY_MAGICNUMBER : Nat := 0x184C2102
def LEGACY_BLOCKSIZE : Nat := 8 * MBc
def LZ4G_BLOCKSIZEID_DEFAULT : Nat := 7

/-- `sizeof(size_t)` on the 64-bit targets the sparse scanner is written for. -/
def sizeT : Nat := 8

/-- `LZ4_COMPRESSBOUND(isize) = isize + isize/255 + 16` (lz4.h macro used at
lz4g.c line 255). -/
def LZ4_COMPRESSBOUND (isize : Nat) : Nat := isize + isize / 255 + 16

/-- lz4g.c line 206: `1 << (8 + (2 * id))`. -/
def LZ4G_GetBlockSize_FromBlockId (id : Nat) : Nat := 2 ^ (8 + 2 * id)

/-- lz4g.c line 207. -/
def LZ4G_isSkippableMagicNumber (magic : Nat) : Bool :=
  magic &&& LZ4G_SKIPPABLEMASK = LZ4G_SKIPPABLE0

/-! ## Little-endian 32-bit codec (lz4g.c lines 209-231) -/

/-- lz4g.c lines 209-217: read 4 bytes little-endian.  The C function reads
exactly 4 bytes from a raw pointer; a shorter list (possible only where the C
would read stale buffer memory) is read as zero-extended. -/
def LZ4G_readLE32 (s : List Nat) : Nat :=
  s.getD 0 0 + s.getD 1 0 * 2 ^ 8 + s.getD 2 0 * 2 ^ 16 + s.getD 3 0 * 2 ^ 24

/-- lz4g.c lines 224-231: write 4 bytes little-endian (each byte is the
truncating `unsigned char` cast of a shift of the value). -/
def LZ4G_writeLE32 (value32 : Nat) : List Nat :=
  [value32 % 256, value32 / 2 ^ 8 % 256, value32 / 2 ^ 16 % 256, value32 / 2 ^ 24 % 256]

theorem readLE32_writeLE32 (v : Nat) (hv : v < 2 ^ 32) :
    LZ4G_readLE32 (LZ4G_writeLE32 v) = v := by
  simp only [LZ4G_readLE32, LZ4G_writeLE32, List.getD, List.get?_eq_getElem?]
  norm_num
  omega

theorem writeLE32_readLE32 (b0 b1 b2 b3 : Nat)
    (h0 : b0 < 256) (h1 : b1 < 256) (h2 : b2 < 256) (h3 : b3 < 256) :
    LZ4G_writeLE32 (LZ4G_readLE32 [b0, b1, b2, b3]) = [b0, b1, b2, b3] := by
  simp only [LZ4G_readLE32, LZ4G_writeLE32, List.getD, List.get?_eq_getElem?]
  norm_num
  refine ⟨by omega, by omega, by omega, by omega⟩

/-! ## Generic chunking helper

Several loops in lz4g.c walk a buffer in fixed-size slices (64KB pass-through
copies, `blockSize` reads in the encoder, `sizeT` words and 32KB word segments
in the sparse scanner).  `chunksOf n l` is the list of successive `n`-sized
slices of `l`. -/

def chunksOfGo {α : Type} (n : Nat) : Nat → List α → List (List α)
  | _, [] => []
  | 0, _ :: _ => []
  | fuel + 1, a :: t => (a :: t).take n :: chunksOfGo n fuel ((a :: t).drop n)

def chunksOf {α : Type} (n : Nat) (l : List α) : List (List α) :=
  if n = 0 then [] else chunksOfGo n l.length l

theorem chunksOfGo_fuel {α : Type} (n : Nat) (hn : n ≠ 0) :
    ∀ (k fuel : Nat) (l : List α), l.length ≤ k → l.length ≤ fuel →
    chunksOfGo n fuel l = chunksOfGo n l.length l := by
  intro k
  induction k with
  | zero =>
    intro fuel l hk _
    have h0 : l = [] := List.eq_nil_of_length_eq_zero (by omega)
    subst h0
    cases fuel <;> rfl
  | succ k ih =>
    intro fuel l hk hf
    cases l with
    | nil => cases fuel <;> rfl
    | cons a t =>
      obtain ⟨f1, rfl⟩ : ∃ f1, fuel = f1 + 1 :=
        ⟨fuel - 1, by simp only [List.length_cons] at hf; omega⟩
      simp only [chunksOfGo, List.length_cons]
      rw [ih f1 ((a :: t).drop n)
          (by simp only [List.length_drop, List.length_cons] at *; omega)
          (by simp only [List.length_drop, List.length_cons] at *; omega),
        ih t.length ((a :: t).drop n)
          (by simp only [List.length_drop, List.length_cons] at *; omega)
          (by simp only [List.length_drop, List.length_cons] at *; omega)]

theorem chunksOf_nil {α : Type} (n : Nat) : chunksOf n ([] : List α) = [] := by
  rw [chunksOf]
  split <;> rfl

theorem chunksOf_cons {α : Type} (n : Nat) (hn : n ≠ 0) (a : α) (t : List α) :
    chunksOf n (a :: t) = (a :: t).take n :: chunksOf n ((a :: t).drop n) := by
  rw [chunksOf, chunksOf, if_neg hn, if_neg hn]
  simp only [List.length_cons, chunksOfGo]
  rw [chunksOfGo_fuel n hn t.length t.length ((a :: t).drop n)
    (by simp only [List.length_drop, List.length_cons]; omega)
    (by simp only [List.length_drop, List.length_cons]; omega)]

theorem chunksOf_flatten {α : Type} (n : Nat) (hn : n ≠ 0) (l : List α) :
    (chunksOf n l).flatten = l := by
  generalize hL : l.length = k
  induction k using Nat.strong_induction_on generalizing l with
  | _ k ih =>
    cases l with
    | nil => rw [chunksOf_nil]; rfl
    | cons a t =>
      rw [chunksOf_cons n hn]
      simp only [List.flatten_cons]
      rw [ih ((a :: t).drop n).length
        (by
          simp only [List.length_drop, List.length_cons] at *
          have hpos : 0 < n := by omega
          omega) _ rfl]
      exact List.take_append_drop _ _

/-! ## Output sink model

The decoder writes to `foutput` by physical writes (`fwrite`) and relative
forward seeks (`fseek(..., SEEK_CUR)`).  On a fresh sparse-aware file a seek
leaves a hole that reads back as zero bytes, so the observable file content is
the in-order rendering of the event list with holes rendered as zeros. -/

inductive OEvent : Type where
  | write (bs : List Nat)
  | skip (n : Nat)
deriving DecidableEq, Repr

def zeros (n : Nat) : List Nat := List.replicate n 0

def renderEvents : List OEvent → List Nat
  | [] => []
  | OEvent.write bs :: es => bs ++ renderEvents es
  | OEvent.skip n :: es => zeros n ++ renderEvents es

theorem renderEvents_append (e1 e2 : List OEvent) :
    renderEvents (e1 ++ e2) = renderEvents e1 ++ renderEvents e2 := by
  induction e1 with
  | nil => rfl
  | cons e es ih => cases e <;> simp [renderEvents, ih]

theorem renderEvents_writes (bs : List (List Nat)) :
    renderEvents (bs.map OEvent.write) = bs.flatten := by
  induction bs with
  | nil => rfl
  | cons b t ih => simp [renderEvents, ih]

/-! ## Sparse Write Cursor (lz4g.c lines 340-411)

The decoded buffer is scanned at `size_t` (8-byte word) granularity in 32KB
segments (`bs0T` words each); a trailing `decodedBytes % 8` remainder is
scanned at byte granularity.  A running `storedSkips` counter accumulates the
byte length of leading zero runs; it is flushed as a forward seek when a
non-zero portion must be written, and capped by an 1GB early flush. -/

def bs0T : Nat := 32 * KBc / sizeT

def isZeroWord (w : List Nat) : Bool := w.all (fun b => b = 0)

/-- lz4g.c lines 347-373: the per-segment word loop.  `segs` is the word part
of one decoded buffer pre-chunked into `bs0T`-word segments; each word is 8
bytes.  Returns the emitted output events and the updated `storedSkips`. -/
def sparseSegLoop (storedSkips : Nat) : List (List (List Nat)) → List OEvent × Nat
  | [] => ([], storedSkips)
  | seg :: rest =>
    let zw := seg.takeWhile isZeroWord
    let nz := seg.dropWhile isZeroWord
    let s1 := storedSkips + zw.length * sizeT
    let p1 : List OEvent × Nat :=
      if GBc < s1 then ([OEvent.skip GBc], s1 - GBc) else ([], s1)
    if nz.isEmpty then
      let r := sparseSegLoop p1.2 rest
      (p1.1 ++ r.1, r.2)
    else
      let r := sparseSegLoop 0 rest
      (p1.1 ++ [OEvent.skip p1.2, OEvent.write nz.flatten] ++ r.1, r.2)

/-- lz4g.c lines 340-390: sparse handling of one decoded buffer: word part in
segments, then the `decodedBytes & maskT` byte remainder (lines 374-390). -/
def sparseWriteBlock (storedSkips : Nat) (buf : List Nat) : List OEvent × Nat :=
  let oBuffSizeT := buf.length / sizeT
  let wordBytes := buf.take (oBuffSizeT * sizeT)
  let segs := chunksOf bs0T (chunksOf sizeT wordBytes)
  let m := sparseSegLoop storedSkips segs
  let rest := buf.drop (oBuffSizeT * sizeT)
  if rest.isEmpty then m
  else
    let rz := rest.takeWhile (fun b => b = 0)
    let rnz := rest.dropWhile (fun b => b = 0)
    let s1 := m.2 + rz.length
    if rnz.isEmpty then (m.1, s1)
    else (m.1 ++ [OEvent.skip s1, OEvent.write rnz], 0)

/-- The decode loop routes each decoded buffer through the sparse cursor in
order, with `storedSkips` persisting across buffers (lz4g.c line 295). -/
def sparseWriteBlocks (storedSkips : Nat) : List (List Nat) → List OEvent × Nat
  | [] => ([], storedSkips)
  | b :: bs =>
    let e := sparseWriteBlock storedSkips b
    let r := sparseWriteBlocks e.2 bs
    (e.1 ++ r.1, r.2)

/-- lz4g.c lines 402-411: at decode-session end a pending skip is realized as
a hole of `storedSkips - 1` bytes followed by one physical zero byte. -/
def sparseFinish (storedSkips : Nat) : List OEvent :=
  if 0 < storedSkips then [OEvent.skip (storedSkips - 1), OEvent.write [0]] else []

/-- Full sparse output of one decode session, given the decoded buffers the
streaming decoder produced in order. -/
def sparseSessionEvents (blocks : List (List Nat)) : List OEvent :=
  let m := sparseWriteBlocks 0 blocks
  m.1 ++ sparseFinish m.2

/-! ### Sparse cursor invariant -/

theorem zeros_add (a b : Nat) : zeros (a + b) = zeros a ++ zeros b :=
  List.replicate_add a b 0

theorem flatten_zero_words (zw : List (List Nat))
    (hlen : ∀ w ∈ zw, w.length = sizeT) (hz : ∀ w ∈ zw, isZeroWord w = true) :
    zw.flatten = zeros (zw.length * sizeT) := by
  induction zw with
  | nil => rfl
  | cons w t ih =>
    have hw : w = zeros sizeT := by
      have h1 := hlen w (by simp)
      have h2 := hz w (by simp)
      simp only [isZeroWord, List.all_eq_true, decide_eq_true_eq] at h2
      simp only [zeros]
      exact List.eq_replicate_iff.mpr ⟨h1, h2⟩
    simp only [List.flatten_cons, List.length_cons, hw,
      ih (fun w hm => hlen w (by simp [hm])) (fun w hm => hz w (by simp [hm]))]
    rw [Nat.succ_mul, Nat.add_comm, zeros_add]

theorem chunksOf_mem_length {α : Type} (n : Nat) (hn : n ≠ 0) (l : List α)
    (hdvd : n ∣ l.length) : ∀ c ∈ chunksOf n l, c.length = n := by
  obtain ⟨m, rfl⟩ : ∃ m, n = m + 1 := ⟨n - 1, by omega⟩
  generalize hL : l.length = k
  induction k using Nat.strong_induction_on generalizing l with
  | _ k ih =>
    cases l with
    | nil =>
      intro c hc
      rw [chunksOf_nil] at hc
      exact absurd hc (by simp)
    | cons a t =>
      intro c hc
      rcases hdvd with ⟨q, hq⟩
      have hq1 : 1 ≤ q := by
        rcases Nat.eq_zero_or_pos q with h0 | h0
        · rw [h0, Nat.mul_zero] at hq
          simp at hq
        · exact h0
      have hge : m + 1 ≤ (a :: t).length := hq ▸ Nat.le_mul_of_pos_right _ hq1
      rw [chunksOf_cons (m + 1) (by omega)] at hc
      rcases List.mem_cons.mp hc with h | h
      · subst h
        simp only [List.length_take]
        omega
      · refine ih ((a :: t).drop (m + 1)).length ?_ _ ?_ rfl c h
        · have hLk : t.length + 1 = k := by simpa using hL
          simp only [List.length_drop, List.length_cons]
          omega
        · refine ⟨q - 1, ?_⟩
          rcases q with _ | p
          · omega
          · rw [List.length_drop, hq, Nat.succ_sub_one, Nat.mul_succ, Nat.add_sub_cancel]

theorem chunksOf_mem_mem {α : Type} (n : Nat) (l : List α) :
    ∀ c ∈ chunksOf n l, ∀ x ∈ c, x ∈ l := by
  generalize hL : l.length = k
  induction k using Nat.strong_induction_on generalizing l with
  | _ k ih =>
    cases l with
    | nil =>
      intro c hc
      rw [chunksOf_nil] at hc
      exact absurd hc (by simp)
    | cons a t =>
      intro c hc x hx
      cases n with
      | zero => simp [chunksOf] at hc
      | succ m =>
        rw [chunksOf_cons (m + 1) (by omega)] at hc
        rcases List.mem_cons.mp hc with h | h
        · exact List.take_subset _ _ (h ▸ hx)
        · have hLk : t.length + 1 = k := by simpa using hL
          exact List.drop_subset _ _
            (ih ((a :: t).drop (m + 1)).length
              (by simp only [List.length_drop, List.length_cons]; omega) _ rfl c h x hx)

theorem skipFlush_render (s1 : Nat) :
    renderEvents (if GBc < s1 then ([OEvent.skip GBc], s1 - GBc)
        else (([] : List OEvent), s1)).1 ++
      zeros (if GBc < s1 then ([OEvent.skip GBc], s1 - GBc)
        else (([] : List OEvent), s1)).2 = zeros s1 := by
  split
  · rename_i h
    simp only [renderEvents, List.append_nil]
    rw [← zeros_add, Nat.add_sub_cancel' (Nat.le_of_lt h)]
  · rfl

theorem sparseSegLoop_render (segs : List (List (List Nat))) : ∀ skips : Nat,
    (∀ seg ∈ segs, ∀ w ∈ seg, w.length = sizeT) →
    renderEvents (sparseSegLoop skips segs).1 ++ zeros (sparseSegLoop skips segs).2
      = zeros skips ++ segs.flatten.flatten := by
  induction segs with
  | nil => intro skips _; simp [sparseSegLoop, renderEvents]
  | cons seg rest ih =>
    intro skips hlen
    have hseg : seg.takeWhile isZeroWord ++ seg.dropWhile isZeroWord = seg :=
      List.takeWhile_append_dropWhile isZeroWord seg
    have hzw : (seg.takeWhile isZeroWord).flatten
        = zeros ((seg.takeWhile isZeroWord).length * sizeT) := by
      refine flatten_zero_words _ ?_ ?_
      · intro w hw
        exact hlen seg (by simp) w (List.takeWhile_subset _ hw)
      · intro w hw
        exact List.mem_takeWhile_imp hw
    have hrest : ∀ seg' ∈ rest, ∀ w ∈ seg', w.length = sizeT :=
      fun seg' hm w hw => hlen seg' (by simp [hm]) w hw
    simp only [sparseSegLoop]
    split
    · -- all words of the segment are zero
      rename_i hempty
      have hsegz : seg.flatten = zeros ((seg.takeWhile isZeroWord).length * sizeT) := by
        conv_lhs => rw [← hseg]
        rw [List.isEmpty_iff.mp hempty, List.append_nil, hzw]
      simp only [renderEvents_append, List.append_assoc, ih _ hrest, List.flatten_cons,
        List.flatten_append, hsegz]
      rw [← List.append_assoc, skipFlush_render, ← List.append_assoc, ← zeros_add]
    · -- flush: pending skip realized as a hole, non-zero tail written
      rename_i hempty
      simp only [renderEvents_append, renderEvents, List.append_assoc, List.append_nil,
        List.append_eq, List.nil_append]
      rw [← List.append_assoc, skipFlush_render, ih _ hrest]
      have hz0 : zeros 0 = ([] : List Nat) := rfl
      rw [hz0, List.nil_append, zeros_add, List.append_assoc, ← hzw,
        ← List.append_assoc (List.takeWhile isZeroWord seg).flatten,
        ← List.flatten_append, hseg, List.flatten_cons, List.flatten_append]

theorem sparseWriteBlock_render (skips : Nat) (buf : List Nat) :
    renderEvents (sparseWriteBlock skips buf).1 ++ zeros (sparseWriteBlock skips buf).2
      = zeros skips ++ buf := by
  have hq : buf.length / sizeT * sizeT ≤ buf.length := Nat.div_mul_le_self _ _
  have hwlen : (buf.take (buf.length / sizeT * sizeT)).length
      = buf.length / sizeT * sizeT := by
    rw [List.length_take]
    omega
  have hdvd : sizeT ∣ (buf.take (buf.length / sizeT * sizeT)).length := by
    rw [hwlen]
    exact Dvd.intro_left _ rfl
  have hw8 := chunksOf_mem_length sizeT (by decide) _ hdvd
  have hseglen : ∀ seg ∈ chunksOf bs0T (chunksOf sizeT (buf.take (buf.length / sizeT * sizeT))),
      ∀ w ∈ seg, w.length = sizeT :=
    fun seg hs w hw => hw8 w (chunksOf_mem_mem _ _ seg hs w hw)
  have hmain := sparseSegLoop_render _ skips hseglen
  have hflat : (chunksOf bs0T (chunksOf sizeT
        (buf.take (buf.length / sizeT * sizeT)))).flatten.flatten
      = buf.take (buf.length / sizeT * sizeT) := by
    rw [chunksOf_flatten bs0T (by decide), chunksOf_flatten sizeT (by decide)]
  rw [hflat] at hmain
  have hbuf : buf.take (buf.length / sizeT * sizeT) ++ buf.drop (buf.length / sizeT * sizeT)
      = buf := List.take_append_drop _ _
  have hrsplit := List.takeWhile_append_dropWhile
    (fun b => decide (b = 0)) (buf.drop (buf.length / sizeT * sizeT))
  have hrz : (buf.drop (buf.length / sizeT * sizeT)).takeWhile (fun b => decide (b = 0))
      = zeros ((buf.drop (buf.length / sizeT * sizeT)).takeWhile
          (fun b => decide (b = 0))).length := by
    refine List.eq_replicate_iff.mpr ⟨rfl, fun b hb => ?_⟩
    have h := List.mem_takeWhile_imp hb
    simpa using h
  simp only [sparseWriteBlock]
  split
  · rename_i hre
    rw [List.isEmpty_iff.mp hre, List.append_nil] at hbuf
    rw [hmain, hbuf]
  · rename_i hre
    split
    · rename_i hnz
      rw [List.isEmpty_iff.mp hnz, List.append_nil] at hrsplit
      rw [zeros_add, ← List.append_assoc, hmain, List.append_assoc, ← hrz, hrsplit, hbuf]
    · rename_i hnz
      simp only [renderEvents_append, renderEvents, List.append_assoc, List.append_nil,
        List.append_eq, List.nil_append]
      have hz0 : zeros 0 = ([] : List Nat) := rfl
      rw [hz0, List.append_nil, zeros_add, ← List.append_assoc, ← List.append_assoc, hmain,
        List.append_assoc, List.append_assoc, ← hrz, hrsplit, hbuf]

theorem sparseWriteBlocks_render (blocks : List (List Nat)) : ∀ skips : Nat,
    renderEvents (sparseWriteBlocks skips blocks).1 ++ zeros (sparseWriteBlocks skips blocks).2
      = zeros skips ++ blocks.flatten := by
  induction blocks with
  | nil => intro skips; simp [sparseWriteBlocks, renderEvents]
  | cons b bs ih =>
    intro skips
    simp only [sparseWriteBlocks, renderEvents_append, List.append_assoc, List.flatten_cons]
    rw [ih, ← List.append_assoc, sparseWriteBlock_render, List.append_assoc]

/-- The sparse write cursor invariant: over one full decode session the
rendered output (writes plus zero-rendered holes) is exactly the concatenation
of the decoded buffers. -/
theorem sparseSession_render (blocks : List (List Nat)) :
    renderEvents (sparseSessionEvents blocks) = blocks.flatten := by
  simp only [sparseSessionEvents, renderEvents_append, sparseFinish]
  split
  · rename_i hpos
    simp only [renderEvents, List.append_nil]
    have h2 : zeros ((sparseWriteBlocks 0 blocks).2 - 1) ++ [0]
        = zeros (sparseWriteBlocks 0 blocks).2 := by
      conv_rhs => rw [show (sparseWriteBlocks 0 blocks).2
        = ((sparseWriteBlocks 0 blocks).2 - 1) + 1 by omega]
      rw [zeros_add]
      rfl
    rw [h2]
    have h3 := sparseWriteBlocks_render blocks 0
    rw [show zeros 0 = ([] : List Nat) from rfl, List.nil_append] at h3
    exact h3
  · rename_i hpos
    have h3 := sparseWriteBlocks_render blocks 0
    rw [show (sparseWriteBlocks 0 blocks).2 = 0 by omega,
      show zeros 0 = ([] : List Nat) from rfl, List.append_nil, List.nil_append] at h3
    simpa [renderEvents] using h3

/-! ## Spec-modelled external streaming codec (LZ4F)

Modelled from the spec: the external streaming frame codec (`lz4frame`,
"treated as an external, already-correct collaborator", spec section 1) is
not part of this repository.  It is modelled as a concrete correct codec
whose frame is: the 4 magic bytes, then length-prefixed stored blocks
(4-byte little-endian length, then that many literal payload bytes, length
bounded by the codec's 4MB maximum block size), then a 4-byte zero end mark.
`LZ4F_decompress` is modelled with the interface the glue code relies on
(spec section 4.3): it consumes part of the source, produces at most
`dstCapacity` output bytes, keeps header state across calls, and reports an
error on a malformed frame. -/

def lz4fMagicBytes : List Nat := LZ4G_writeLE32 LZ4G_MAGICNUMBER

def lz4fMaxBlock : Nat := 4 * MBc

/-- Modelled from the spec: streaming decompression context state (the opaque
`LZ4F_decompressionContext_t`).  `magic`/`len` buffer a partially read 4-byte
field; `data k` expects `k` more literal payload bytes; `done` is a completed
frame (a further byte begins a new frame header). -/
inductive DState : Type where
  | magic (buf : List Nat)
  | len (buf : List Nat)
  | data (k : Nat)
  | done
deriving DecidableEq, Repr

/-- Modelled from the spec: one byte of decoder progress.  `none` is a decode
error (malformed magic, or a declared block length above the codec maximum —
"corrupted compressed data (decode rejects it)", spec section 7). -/
def dstep : DState → Nat → Option (DState × List Nat)
  | DState.magic buf, b =>
    let buf1 := buf ++ [b]
    if buf1.length < 4 then some (DState.magic buf1, [])
    else if buf1 = lz4fMagicBytes then some (DState.len [], []) else none
  | DState.len buf, b =>
    let buf1 := buf ++ [b]
    if buf1.length < 4 then some (DState.len buf1, [])
    else
      let n := LZ4G_readLE32 buf1
      if n = 0 then some (DState.done, [])
      else if lz4fMaxBlock < n then none
      else some (DState.data n, [])
  | DState.data k, b => if k ≤ 1 then some (DState.len [], [b]) else some (DState.data (k - 1), [b])
  | DState.done, b => some (DState.magic [b], [])

/-- Total decoder run over a byte list (reference semantics for the chunked
calls the glue makes). -/
def drun (st : DState) : List Nat → Option (DState × List Nat)
  | [] => some (st, [])
  | b :: rest =>
    match dstep st b with
    | none => none
    | some (st1, ob) =>
      match drun st1 rest with
      | none => none
      | some (st2, out) => some (st2, ob ++ out)

/-- Modelled from the spec: one `LZ4F_decompress(ctx, dst, dstCap, src, srcSize)`
call.  Consumes a maximal prefix of `src` whose decoded output fits in `cap`,
returning the new context state, the number of source bytes consumed, and the
decoded bytes; `none` is a decode error. -/
def lz4f_decompressCall (st : DState) (cap : Nat) : List Nat → Option (DState × Nat × List Nat)
  | [] => some (st, 0, [])
  | b :: rest =>
    match dstep st b with
    | none => none
    | some (st1, ob) =>
      if ob.length ≤ cap then
        match lz4f_decompressCall st1 (cap - ob.length) rest with
        | none => none
        | some (st2, n, out) => some (st2, n + 1, ob ++ out)
      else some (st, 0, [])

theorem dstep_out_le (st : DState) (b : Nat) (st1 : DState) (ob : List Nat)
    (h : dstep st b = some (st1, ob)) : ob.length ≤ 1 := by
  cases st <;> simp only [dstep] at h <;> repeat' split at h
  all_goals simp only [Option.some.injEq, Prod.mk.injEq, reduceCtorEq] at h
  all_goals first
    | exact h.elim
    | (obtain ⟨h1, h2⟩ := h
       subst h2
       simp)

theorem drun_append (st : DState) (l1 l2 : List Nat) :
    drun st (l1 ++ l2)
      = match drun st l1 with
        | none => none
        | some (st1, out1) =>
          match drun st1 l2 with
          | none => none
          | some (st2, out2) => some (st2, out1 ++ out2) := by
  induction l1 generalizing st with
  | nil =>
    simp only [List.nil_append, drun]
    cases drun st l2 with
    | none => rfl
    | some v => rfl
  | cons b rest ih =>
    simp only [List.cons_append, drun, List.append_eq]
    cases dstep st b with
    | none => rfl
    | some v =>
      obtain ⟨st1, ob⟩ := v
      dsimp only
      rw [ih st1]
      cases drun st1 rest with
      | none => rfl
      | some w =>
        obtain ⟨st2, out1⟩ := w
        dsimp only
        cases drun st2 l2 with
        | none => rfl
        | some u => simp [List.append_assoc]

/-- When the destination capacity covers the source length, one decompress
call consumes the entire source (each byte yields at most one output byte). -/
theorem lz4f_decompressCall_all (src : List Nat) : ∀ (st : DState) (cap : Nat),
    src.length ≤ cap →
    lz4f_decompressCall st cap src
      = match drun st src with
        | none => none
        | some (st1, out) => some (st1, src.length, out) := by
  induction src with
  | nil => intro st cap _; rfl
  | cons b rest ih =>
    intro st cap hcap
    simp only [lz4f_decompressCall, drun]
    cases hstep : dstep st b with
    | none => rfl
    | some v =>
      obtain ⟨st1, ob⟩ := v
      dsimp only
      have hob := dstep_out_le st b st1 ob hstep
      have hle : ob.length ≤ cap := by
        simp only [List.length_cons] at hcap
        omega
      rw [if_pos hle, ih st1 (cap - ob.length) (by simp only [List.length_cons] at hcap; omega)]
      cases drun st1 rest with
      | none => rfl
      | some w =>
        obtain ⟨st2, out⟩ := w
        dsimp only
        simp [List.length_cons]

/-! ## Framed Stream Encoder (lz4g.c lines 515-604) -/

/-- The `LZ4F_preferences_t` fields the encoder sets (lz4g.c lines 526-547);
`memset(&prefs, 0, ...)` zeroes everything first. -/
structure LZ4F_preferences where
  autoFlush : Nat
  compressionLevel : Int
  blockMode : Nat
  blockSizeID : Nat
  contentChecksumFlag : Nat
  contentSize : Nat
deriving DecidableEq, Repr

/-- lz4g.c lines 531-547: zero-initialize, then set the compression
parameters.  Line 545 initializes `fileSize` to `0` (the `LZ4G_GetFileSize`
call is commented out in the source), so the announced `contentSize` is `0`
whenever `g_contentSizeFlag` is set. -/
def compressPreferences (compressionLevel : Int) (blockSizeId : Nat)
    (blockIndependence streamChecksum contentSizeFlag : Bool) : LZ4F_preferences :=
  let base : LZ4F_preferences :=
    { autoFlush := 0, compressionLevel := 0, blockMode := 0, blockSizeID := 0,
      contentChecksumFlag := 0, contentSize := 0 }
  let p1 : LZ4F_preferences :=
    { base with
      autoFlush := 1
      compressionLevel := compressionLevel
      blockMode := if blockIndependence then 1 else 0
      blockSizeID := blockSizeId
      contentChecksumFlag := if streamChecksum then 1 else 0 }
  if contentSizeFlag then
    let fileSize : Nat := 0
    { p1 with contentSize := fileSize }
  else p1

/-- Modelled from the spec: `LZ4F_compressBegin` output (the frame header the
external codec emits: the 4 magic bytes). -/
def lz4f_compressBegin : List Nat := lz4fMagicBytes

/-- Modelled from the spec: `LZ4F_compressUpdate` output for one input block
(a stored block: the 4-byte little-endian length, then the payload). -/
def lz4f_compressUpdate (block : List Nat) : List Nat :=
  LZ4G_writeLE32 block.length ++ block

/-- Modelled from the spec: `LZ4F_compressEnd` output (the zero end mark). -/
def lz4f_compressEnd : List Nat := LZ4G_writeLE32 0

/-- lz4g.c lines 562-583: read `blockSize`-sized blocks until a read returns
zero bytes, feeding each block through `LZ4F_compressUpdate`. -/
def compressBlocksLoop : Nat → List Nat → List Nat
  | _, [] => []
  | 0, _ :: _ => []
  | bs + 1, a :: t =>
    lz4f_compressUpdate ((a :: t).take (bs + 1))
      ++ compressBlocksLoop (bs + 1) ((a :: t).drop (bs + 1))
termination_by _ l => l.length
decreasing_by
  simp only [List.length_drop, List.length_cons]
  omega

/-- Result of one compress call: the status (0: the file model has no I/O
failures), the bytes written to `foutput`, and the preferences handed to the
codec. -/
structure CompressOut where
  status : Nat
  out : List Nat
  prefs : LZ4F_preferences
deriving DecidableEq, Repr

/-- lz4g.c lines 515-604 (`LZ4G_compressFramedFileStream`): configure the
codec preferences, write the `LZ4F_compressBegin` header, feed
`blockSize`-sized blocks through `LZ4F_compressUpdate` until the input is
exhausted, then write the `LZ4F_compressEnd` mark.  The globals the function
reads (`g_contentSizeFlag`, `g_blockIndependence`, `g_streamChecksum`,
`g_blockSizeId`) are explicit arguments. -/
def LZ4G_compressFramedFileStream (contentSizeFlag blockIndependence streamChecksum : Bool)
    (blockSizeId : Nat) (compressionLevel : Int) (finput : List Nat) : CompressOut :=
  let prefs := compressPreferences compressionLevel blockSizeId
    blockIndependence streamChecksum contentSizeFlag
  let blockSize := LZ4G_GetBlockSize_FromBlockId blockSizeId
  let header := lz4f_compressBegin
  let body := compressBlocksLoop blockSize finput
  let tail := lz4f_compressEnd
  { status := 0, out := header ++ body ++ tail, prefs := prefs }

/-! ### The model codec decodes its own frames -/

theorem drun_magicBytes : drun (DState.magic []) lz4fMagicBytes = some (DState.len [], []) := by
  rfl

theorem drun_endMark : drun (DState.len []) lz4f_compressEnd = some (DState.done, []) := by
  rfl

theorem drun_data (blk : List Nat) (hne : blk ≠ []) :
    drun (DState.data blk.length) blk = some (DState.len [], blk) := by
  induction blk with
  | nil => exact absurd rfl hne
  | cons b rest ih =>
    cases rest with
    | nil => rfl
    | cons c t =>
      have hstep : dstep (DState.data (b :: c :: t).length) b
          = some (DState.data (c :: t).length, [b]) := by
        simp only [dstep, List.length_cons]
        rw [if_neg (by omega)]
        norm_num
      rw [drun, hstep]
      dsimp only
      rw [ih (by simp)]
      rfl

theorem drun_lenField (n : Nat) (hpos : 0 < n) (hmax : n ≤ lz4fMaxBlock) :
    drun (DState.len []) (LZ4G_writeLE32 n) = some (DState.data n, []) := by
  have hn32 : n < 2 ^ 32 := by
    have h : lz4fMaxBlock < 2 ^ 32 := by decide
    omega
  have h1 : dstep (DState.len []) (n % 256) = some (DState.len [n % 256], []) := by
    simp [dstep]
  have h2 : dstep (DState.len [n % 256]) (n / 2 ^ 8 % 256)
      = some (DState.len [n % 256, n / 2 ^ 8 % 256], []) := by
    simp [dstep]
  have h3 : dstep (DState.len [n % 256, n / 2 ^ 8 % 256]) (n / 2 ^ 16 % 256)
      = some (DState.len [n % 256, n / 2 ^ 8 % 256, n / 2 ^ 16 % 256], []) := by
    simp [dstep]
  have h4 : dstep (DState.len [n % 256, n / 2 ^ 8 % 256, n / 2 ^ 16 % 256]) (n / 2 ^ 24 % 256)
      = some (DState.data n, []) := by
    simp only [dstep]
    rw [if_neg (by simp)]
    have hr : LZ4G_readLE32 ([n % 256, n / 2 ^ 8 % 256, n / 2 ^ 16 % 256]
        ++ [n / 2 ^ 24 % 256]) = n := by
      have h := readLE32_writeLE32 n hn32
      simpa [LZ4G_writeLE32] using h
    rw [hr, if_neg (by omega), if_neg (by omega)]
  show drun (DState.len []) [n % 256, n / 2 ^ 8 % 256, n / 2 ^ 16 % 256, n / 2 ^ 24 % 256] = _
  rw [drun, h1]
  dsimp only
  rw [drun, h2]
  dsimp only
  rw [drun, h3]
  dsimp only
  rw [drun, h4]
  dsimp only
  rfl

theorem drun_block (blk : List Nat) (hne : blk ≠ []) (hmax : blk.length ≤ lz4fMaxBlock) :
    drun (DState.len []) (lz4f_compressUpdate blk) = some (DState.len [], blk) := by
  rw [lz4f_compressUpdate, drun_append,
    drun_lenField blk.length
      (by cases blk with | nil => exact absurd rfl hne | cons a t => simp) hmax]
  dsimp only
  rw [drun_data blk hne]
  rfl

theorem drun_body (bs : Nat) (hmax : bs + 1 ≤ lz4fMaxBlock) (S : List Nat) :
    drun (DState.len []) (compressBlocksLoop (bs + 1) S) = some (DState.len [], S) := by
  generalize hL : S.length = k
  induction k using Nat.strong_induction_on generalizing S with
  | _ k ih =>
    cases S with
    | nil =>
      rw [show compressBlocksLoop (bs + 1) [] = [] by rw [compressBlocksLoop]]
      rfl
    | cons a t =>
      rw [compressBlocksLoop, drun_append,
        drun_block _ (by simp) (by simp only [List.length_take]; omega)]
      dsimp only
      rw [ih ((a :: t).drop (bs + 1)).length
        (by simp only [List.length_drop, List.length_cons] at *; omega) _ rfl]
      dsimp only
      rw [List.take_append_drop]

theorem drun_frame (bs : Nat) (hmax : bs + 1 ≤ lz4fMaxBlock) (S : List Nat) :
    drun (DState.magic []) (lz4fMagicBytes ++ (compressBlocksLoop (bs + 1) S ++ lz4f_compressEnd))
      = some (DState.done, S) := by
  rw [drun_append, drun_magicBytes]
  dsimp only
  rw [drun_append, drun_body bs hmax S]
  dsimp only
  rw [drun_endMark]
  dsimp only
  simp

/-! ## Framed Stream Decoder (lz4g.c lines 283-421) -/

def inBuffSize : Nat := 256 * KBc
def outBuffSize : Nat := 256 * KBc

/-- Result of a fallible internal operation: `ok`, or an error carrying the
numeric code and the description the C passes to the
`LZ4G_RETURN_ERROR` macros. -/
inductive GRes (α : Type) where
  | ok (val : α)
  | err (code : Nat) (msg : String)
deriving DecidableEq, Repr

def msg40 : String := "Unrecognized header : Magic Number unreadable"
def msg42 : String := "Stream error : skippable size unreadable"
def msg43 : String := "Stream error : cannot skip skippable area"
def msg44 : String := "Unrecognized header : file cannot be decoded: Wrong magic number at the beginning of 1st stream."
def msg52 : String := "Read error : cannot access compressed block !"
def msg53 : String := "Decoding Failed ! Corrupted input detected !"
def msg62 : String := "Header error"
def msg66 : String := "Decompression error"

/-- lz4g.c lines 327-398, inner loop: repeatedly call `LZ4F_decompress` on the
remaining unconsumed slice of the current chunk until the chunk is exhausted,
collecting the non-empty decoded buffers in order.  The C `while (pos <
readSize)` loop advances `pos` by the consumed count of each call; each call
consumes at least one byte (capacity `outBuffSize` is positive and one byte
yields at most one output byte), so `chunk.length` iterations always suffice
and the fuel-exhausted arm is unreachable from the outer loop below. -/
def decodeInnerLoop : Nat → DState → List Nat → Option (DState × List (List Nat))
  | _, st, [] => some (st, [])
  | 0, st, _ :: _ => some (st, [])
  | fuel + 1, st, b :: rest =>
    match lz4f_decompressCall st outBuffSize (b :: rest) with
    | none => none
    | some (st1, n, out) =>
      match decodeInnerLoop fuel st1 ((b :: rest).drop n) with
      | none => none
      | some (st2, outs) => some (st2, if out.isEmpty then outs else out :: outs)

/-- lz4g.c lines 318-400, outer loop: `fread` chunks of `inBuffSize` bytes
until a read returns nothing, feeding each chunk through the inner loop with
the streaming context state carried across chunks. -/
def decodeOuterLoop (st : DState) (input : List Nat) : Option (DState × List (List Nat)) :=
  match input with
  | [] => some (st, [])
  | a :: t =>
    match decodeInnerLoop ((a :: t).take inBuffSize).length st ((a :: t).take inBuffSize) with
    | none => none
    | some (st1, bs1) =>
      match decodeOuterLoop st1 ((a :: t).drop inBuffSize) with
      | none => none
      | some (st2, bs2) => some (st2, bs1 ++ bs2)
termination_by input.length
decreasing_by
  simp only [List.length_drop, List.length_cons, inBuffSize, KBc]
  omega

/-- lz4g.c lines 283-421 (`LZ4G_decodeLZ4S`): create the streaming context,
re-feed the 4 magic bytes already consumed by the dispatcher (lines 307-314,
with a zero-capacity destination), run the chunked main loop over the rest of
the input, then write the decoded buffers (through the sparse cursor when
`g_sparseFileSupport` is on, including the final pending-skip flush of lines
402-411) and free the context (line 416).  The second component reports
whether `LZ4F_freeDecompressionContext` was invoked before returning: the
error arms return straight from the `LZ4G_RETURN_ERROR` macro sites without
reaching the free at line 416.  `input` is the remainder of the file after
the magic number. -/
def LZ4G_decodeLZ4S (sparse : Bool) (input : List Nat) : GRes (Nat × List OEvent) × Bool :=
  match lz4f_decompressCall (DState.magic []) 0 lz4fMagicBytes with
  | none => (GRes.err 62 msg62, false)
  | some (st1, _, _) =>
    match decodeOuterLoop st1 input with
    | none => (GRes.err 66 msg66, false)
    | some (_, blocks) =>
      let filesize := (blocks.map List.length).sum
      let events := if sparse then sparseSessionEvents blocks else blocks.map OEvent.write
      (GRes.ok (filesize, events), true)

/-! ## File model and the dispatcher (lz4g.c lines 233-281, 424-498) -/

/-- A `FILE*` open for reading: content plus current position.  `fseek` with
`SEEK_CUR` moves `pos`; moving past the end is allowed (later reads return
nothing). -/
structure InFile where
  data : List Nat
  pos : Nat
deriving DecidableEq, Repr

/-- `fread(buf, 1, n, f)`: returns up to `n` bytes from the current position
and advances it by the number of bytes actually read. -/
def fread (n : Nat) (f : InFile) : List Nat × InFile :=
  let bytes := (f.data.drop f.pos).take n
  (bytes, { f with pos := f.pos + bytes.length })

/-- lz4g.c lines 233-281 (`LZ4G_decodeLegacyStream`): read 4-byte block-size
fields and decode length-prefixed blocks through the external fixed-block
codec (`LZ4_decompress_safe`, passed in as `codec`; `none` is a negative
return).  A declared size above `LZ4_COMPRESSBOUND(LEGACY_BLOCKSIZE)` rewinds
the 4 bytes and stops.  `fuel` bounds the loop (each iteration consumes at
least 4 bytes, so `remaining/4 + 1` suffices; the caller passes more).  When
`fread` returns 1-3 bytes the C reads stale buffer memory through
`LZ4G_readLE32`; the model reads the short field zero-extended (no claim
depends on this indeterminate case). -/
def LZ4G_decodeLegacyStream (codec : List Nat → Option (List Nat)) :
    Nat → Nat → InFile → List OEvent → GRes Nat × InFile × List OEvent
  | 0, filesize, f, evs => (GRes.ok filesize, f, evs)
  | fuel + 1, filesize, f, evs =>
    let r := fread 4 f
    if r.1.length = 0 then (GRes.ok filesize, r.2, evs)
    else
      let blockSize := LZ4G_readLE32 r.1
      if LZ4_COMPRESSBOUND LEGACY_BLOCKSIZE < blockSize then
        (GRes.ok filesize, { r.2 with pos := r.2.pos - 4 }, evs)
      else
        let rb := fread blockSize r.2
        if rb.1.length ≠ blockSize then (GRes.err 52 msg52, rb.2, evs)
        else
          match codec rb.1 with
          | none => (GRes.err 53 msg53, rb.2, evs)
          | some dec =>
            LZ4G_decodeLegacyStream codec fuel (filesize + dec.length) rb.2
              (evs ++ [OEvent.write dec])

/-- lz4g.c lines 424-444 (`LZ4G_passThrough`) output: the 4 already-consumed
header bytes, then the rest of the input copied in 64KB chunks. -/
def passThroughEvents (u32store rest : List Nat) : List OEvent :=
  OEvent.write u32store :: (chunksOf (64 * KBc) rest).map OEvent.write

/-- Dispatcher result: end-of-input sentinel (`*ret = ENDOFSTREAM; return 0`),
a decoded byte count (`*ret = n; return 0`), or an error (positive return). -/
inductive SelRes where
  | eos
  | decoded (n : Nat)
  | err (code : Nat) (msg : String)
deriving DecidableEq, Repr

/-- lz4g.c lines 449-498 (`LZ4G_selectDecoder`): read the 4-byte magic
number, fold skippable magics, and route.  `nbCalls` is the C `static
unsigned nbCalls` counter: it lives for the whole process, is never reset,
and is incremented on every invocation (including the tail recursion for
skippable chunks), so it is threaded as explicit state.  Globals
`g_overwrite`/`g_sparseFileSupport` and the legacy block codec are explicit
arguments.  `fuel` bounds the skippable-chunk recursion (each recursion
consumes at least 8 input bytes, so a fuel of the remaining length suffices;
callers pass more). -/
def LZ4G_selectDecoder (codec : List Nat → Option (List Nat)) (overwrite sparse : Bool) :
    Nat → Nat → InFile → SelRes × Nat × InFile × List OEvent
  | fuel, nbCalls, f =>
    let nb1 := nbCalls + 1
    let r := fread MAGICNUMBER_SIZE f
    if r.1.length = 0 then (SelRes.eos, nb1, r.2, [])
    else if r.1.length ≠ MAGICNUMBER_SIZE then (SelRes.err 40 msg40, nb1, r.2, [])
    else
      let m0 := LZ4G_readLE32 r.1
      let magicNumber := if LZ4G_isSkippableMagicNumber m0 then LZ4G_SKIPPABLE0 else m0
      if magicNumber = LZ4G_MAGICNUMBER then
        match LZ4G_decodeLZ4S sparse (r.2.data.drop r.2.pos) with
        | (GRes.ok v, _) =>
          (SelRes.decoded v.1, nb1, { r.2 with pos := r.2.data.length }, v.2)
        | (GRes.err c m, _) =>
          (SelRes.err c m, nb1, { r.2 with pos := r.2.data.length }, [])
      else if magicNumber = LEGACY_MAGICNUMBER then
        match LZ4G_decodeLegacyStream codec (r.2.data.length + 1) 0 r.2 [] with
        | (GRes.ok n, f2, evs) => (SelRes.decoded n, nb1, f2, evs)
        | (GRes.err c m, f2, _) => (SelRes.err c m, nb1, f2, [])
      else if magicNumber = LZ4G_SKIPPABLE0 then
        let r2 := fread 4 r.2
        if r2.1.length ≠ 4 then (SelRes.err 42 msg42, nb1, r2.2, [])
        else
          let size := LZ4G_readLE32 r2.1
          let f3 : InFile := { r2.2 with pos := r2.2.pos + size }
          match fuel with
          | 0 => (SelRes.err 43 msg43, nb1, f3, [])
          | fuel1 + 1 => LZ4G_selectDecoder codec overwrite sparse fuel1 nb1 f3
      else
        if nb1 = 1 then
          if overwrite then
            (SelRes.decoded (MAGICNUMBER_SIZE + (r.2.data.drop r.2.pos).length), nb1,
              { r.2 with pos := r.2.data.length },
              passThroughEvents r.1 (r.2.data.drop r.2.pos))
          else (SelRes.err 44 msg44, nb1, r.2, [])
        else (SelRes.eos, nb1, r.2, [])

/-! ## Multi-Stream Driver (lz4g.c lines 612-647) -/

/-- Result of one top-level decompress call: the return value (0 on success,
else the `snprintf` return value), the diagnostic actually stored in the
caller's `*errstring` buffer, the accumulated decoded size, the output
events, and the final value of the dispatcher's static call counter. -/
structure DriverOut where
  status : Nat
  errWritten : String
  filesize : Nat
  events : List OEvent
  nbCalls : Nat
deriving DecidableEq, Repr

/-- `snprintf(buf, cap, ...)` semantics: stores at most `cap - 1` characters
(nothing if `cap = 0`) and returns the length the full formatted message
would have. -/
def snprintfModel (cap : Nat) (msg : String) : String × Nat :=
  (if cap = 0 then "" else msg.take (cap - 1), msg.length)

/-- lz4g.c lines 627-636: the do-while dispatcher loop.  `errCap` is the
value of `*nerrbytes` seen by the `LZ4G_RETURN_ERROR` snprintf calls.  `fuel`
bounds the loop (every `decoded` outcome advances the input position by at
least 4 bytes, so `length/4 + 2` iterations suffice; the wrapper passes
more). -/
def decompressLoop (codec : List Nat → Option (List Nat)) (overwrite sparse : Bool)
    (errCap : Nat) : Nat → Nat → InFile → Nat → List OEvent → DriverOut
  | 0, nb, _, filesize, evs =>
    { status := 0, errWritten := "", filesize := filesize, events := evs, nbCalls := nb }
  | fuel + 1, nb, f, filesize, evs =>
    let r := LZ4G_selectDecoder codec overwrite sparse (f.data.length + 1) nb f
    match r.1 with
    | SelRes.err _ m =>
      let w := snprintfModel errCap m
      { status := w.2, errWritten := w.1, filesize := filesize, events := evs,
        nbCalls := r.2.1 }
    | SelRes.eos =>
      { status := 0, errWritten := "", filesize := filesize, events := evs ++ r.2.2.2,
        nbCalls := r.2.1 }
    | SelRes.decoded n =>
      decompressLoop codec overwrite sparse errCap fuel r.2.1 r.2.2.1 (filesize + n)
        (evs ++ r.2.2.2)

/-- lz4g.c lines 612-647 (`LZ4G_decompressFramedFileStream`): at entry the
function stores a NUL into the caller's buffer and sets `*nerrbytes = 0`
(lines 618-619), so every later error site formats into a zero-capacity
buffer; then it loops the dispatcher over the concatenated streams.
`nerrbytes` is the caller-supplied capacity (at least 1024 per the API
comment, lines 504-513) and `nbCalls` the process-wide dispatcher counter at
entry (0 in a fresh process). -/
def LZ4G_decompressFramedFileStream (codec : List Nat → Option (List Nat))
    (overwrite sparse : Bool) (nbCalls : Nat) (finput : InFile) (nerrbytes : Nat) : DriverOut :=
  let zeroedCap : Nat := 0 + nerrbytes * 0
  decompressLoop codec overwrite sparse zeroedCap (finput.data.length + 2) nbCalls finput 0 []

/-- lz4g.c lines 627-636 modelled over an arbitrary sequence of dispatcher
outcomes: each element is the pair `(decRes, decodedSize)` a
`LZ4G_selectDecoder` invocation reports (`decodedSize` is the 64-bit
`unsigned long long`, with `ENDOFSTREAM = (unsigned long long)-1` as the
end-of-input sentinel).  Returns `(return value, filesize accumulated, number
of dispatcher invocations consumed)`, or `none` if the outcome list is
exhausted before the loop terminates. -/
def ENDOFSTREAM : Nat := 2 ^ 64 - 1

def decompressStreamLoopModel : List (Nat × Nat) → Nat → Option (Nat × Nat × Nat)
  | [], _ => none
  | (decRes, decodedSize) :: rest, filesize =>
    if decRes ≠ 0 then some (decRes, filesize, 1)
    else if decodedSize = ENDOFSTREAM then some (0, filesize, 1)
    else
      match decompressStreamLoopModel rest (filesize + decodedSize) with
      | none => none
      | some (st, fs, k) => some (st, fs, k + 1)

/-! ### The chunked decode loops compute the total decode -/

theorem decodeInnerLoop_nil (fuel : Nat) (st : DState) :
    decodeInnerLoop fuel st [] = some (st, []) := by
  cases fuel <;> rfl

/-- A whole chunk (at most the 256KB buffer size) is consumed by the first
decompress call, so the inner loop produces at most one decoded buffer. -/
theorem decodeInnerLoop_chunk (c : List Nat) (st stc : DState) (oc : List Nat)
    (hlen : c.length ≤ outBuffSize) (hrun : drun st c = some (stc, oc)) :
    decodeInnerLoop c.length st c = some (stc, if oc.isEmpty then [] else [oc]) := by
  cases c with
  | nil =>
    simp only [drun, Option.some.injEq, Prod.mk.injEq] at hrun
    obtain ⟨rfl, h2⟩ := hrun
    subst h2
    rfl
  | cons b t =>
    show decodeInnerLoop (t.length + 1) st (b :: t) = _
    rw [decodeInnerLoop, lz4f_decompressCall_all (b :: t) st outBuffSize
      (by simpa using hlen), hrun]
    dsimp only
    rw [show ((b :: t).drop (b :: t).length) = [] from List.drop_length _,
      decodeInnerLoop_nil]

theorem decodeOuterLoop_of_drun (input : List Nat) : ∀ (st st2 : DState) (out : List Nat),
    drun st input = some (st2, out) →
    ∃ blocks, decodeOuterLoop st input = some (st2, blocks) ∧ blocks.flatten = out := by
  generalize hL : input.length = k
  induction k using Nat.strong_induction_on generalizing input with
  | _ k ih =>
    cases input with
    | nil =>
      intro st st2 out hrun
      simp only [drun, Option.some.injEq, Prod.mk.injEq] at hrun
      obtain ⟨rfl, h2⟩ := hrun
      subst h2
      exact ⟨[], by rw [decodeOuterLoop], rfl⟩
    | cons a t =>
      intro st st2 out hrun
      have hsplit : (a :: t).take inBuffSize ++ (a :: t).drop inBuffSize = a :: t :=
        List.take_append_drop _ _
      rw [← hsplit, drun_append] at hrun
      cases h1 : drun st ((a :: t).take inBuffSize) with
      | none => rw [h1] at hrun; exact absurd hrun (by simp)
      | some v =>
        obtain ⟨stc, oc⟩ := v
        rw [h1] at hrun
        dsimp only at hrun
        cases h2 : drun stc ((a :: t).drop inBuffSize) with
        | none => rw [h2] at hrun; exact absurd hrun (by simp)
        | some w =>
          obtain ⟨stw, ow⟩ := w
          rw [h2] at hrun
          dsimp only at hrun
          simp only [Option.some.injEq, Prod.mk.injEq] at hrun
          obtain ⟨rfl, h4⟩ := hrun
          obtain ⟨bs2, hb2, hf2⟩ := ih ((a :: t).drop inBuffSize).length
            (by simp only [List.length_drop, List.length_cons, inBuffSize, KBc] at *; omega)
            _ rfl stc stw ow h2
          refine ⟨(if oc.isEmpty then [] else [oc]) ++ bs2, ?_, ?_⟩
          · rw [decodeOuterLoop]
            rw [decodeInnerLoop_chunk _ st stc oc
              (le_trans (List.length_take_le _ _) (by rw [show inBuffSize = outBuffSize from rfl]))
              h1]
            dsimp only
            rw [hb2]
          · rw [List.flatten_append, hf2, ← h4]
            cases hoc : oc.isEmpty
            · rw [if_neg (by simp [hoc])]
              simp
            · rw [if_pos (by simp [hoc]), List.isEmpty_iff.mp hoc]
              simp

theorem sum_map_length (bs : List (List Nat)) :
    (bs.map List.length).sum = bs.flatten.length := by
  induction bs with
  | nil => rfl
  | cons b t ih =>
    simp only [List.map_cons, List.sum_cons, List.flatten_cons, List.length_append, ih]

theorem lz4f_header_feed :
    lz4f_decompressCall (DState.magic []) 0 lz4fMagicBytes
      = some (DState.len [], 4, []) := by decide

theorem decodeLZ4S_of_drun (input : List Nat) (st2 : DState) (out : List Nat)
    (hrun : drun (DState.len []) input = some (st2, out)) :
    ∃ blocks : List (List Nat), LZ4G_decodeLZ4S false input
        = (GRes.ok (out.length, blocks.map OEvent.write), true)
      ∧ blocks.flatten = out := by
  obtain ⟨blocks, hb, hf⟩ := decodeOuterLoop_of_drun input (DState.len []) st2 out hrun
  refine ⟨blocks, ?_, hf⟩
  rw [LZ4G_decodeLZ4S, lz4f_header_feed]
  dsimp only
  rw [hb]
  dsimp only
  rw [if_neg (by simp), sum_map_length, hf]

/-! ### Dispatcher steps on a frame and at end of input -/

theorem take_magic (body : List Nat) : (lz4fMagicBytes ++ body).take 4 = lz4fMagicBytes := by
  rw [show (4 : Nat) = lz4fMagicBytes.length from rfl]
  exact List.take_left _ _

theorem drop_magic (body : List Nat) : (lz4fMagicBytes ++ body).drop 4 = body := by
  rw [show (4 : Nat) = lz4fMagicBytes.length from rfl]
  exact List.drop_left _ _

theorem selectDecoder_frame (codec : List Nat → Option (List Nat)) (overwrite : Bool)
    (fuel nb : Nat) (body : List Nat) (n : Nat) (evs : List OEvent) (fr : Bool)
    (hdec : LZ4G_decodeLZ4S false body = (GRes.ok (n, evs), fr)) :
    LZ4G_selectDecoder codec overwrite false fuel nb ⟨lz4fMagicBytes ++ body, 0⟩
      = (SelRes.decoded n, nb + 1,
          ⟨lz4fMagicBytes ++ body, (lz4fMagicBytes ++ body).length⟩, evs) := by
  have hread : fread MAGICNUMBER_SIZE ⟨lz4fMagicBytes ++ body, 0⟩
      = (lz4fMagicBytes, ⟨lz4fMagicBytes ++ body, 4⟩) := by
    simp only [fread, MAGICNUMBER_SIZE, List.drop_zero, take_magic]
    rfl
  rw [LZ4G_selectDecoder, hread]
  dsimp only
  rw [if_neg (by decide), if_neg (by decide),
    show (if LZ4G_isSkippableMagicNumber (LZ4G_readLE32 lz4fMagicBytes) = true
      then LZ4G_SKIPPABLE0 else LZ4G_readLE32 lz4fMagicBytes) = LZ4G_MAGICNUMBER from by decide]
  rw [if_pos rfl, drop_magic, hdec]

theorem selectDecoder_eos (codec : List Nat → Option (List Nat)) (overwrite sparse : Bool)
    (fuel nb : Nat) (f : InFile) (hpos : f.data.length ≤ f.pos) :
    LZ4G_selectDecoder codec overwrite sparse fuel nb f = (SelRes.eos, nb + 1, f, []) := by
  have hread : fread MAGICNUMBER_SIZE f = ([], f) := by
    simp only [fread, List.drop_eq_nil_of_le hpos, List.take_nil, List.length_nil,
      Nat.add_zero]
  rw [LZ4G_selectDecoder, hread]
  simp

/-! ## Claim theorems -/

/-- C1: for every byte sequence S, with sparse mode off and the external
codec assumed correct (here: the spec-modelled codec), decompressing the
output of `LZ4G_compressFramedFileStream` reproduces S exactly: the driver
returns 0 and the bytes written to the output are S.  Quantified over the
legacy block codec, the overwrite flag, the initial dispatcher call counter,
the caller's error-buffer capacity, and the encoder configuration (block size
id in the valid range 4-7). -/
theorem spec_C1_roundtrip (codec : List Nat → Option (List Nat))
    (overwrite contentSizeFlag blockIndependence streamChecksum : Bool)
    (compressionLevel : Int) (blockSizeId : Nat)
    (hid4 : 4 ≤ blockSizeId) (hid7 : blockSizeId ≤ 7)
    (nbCalls nerrbytes : Nat) (S : List Nat) :
    (LZ4G_decompressFramedFileStream codec overwrite false nbCalls
        ⟨(LZ4G_compressFramedFileStream contentSizeFlag blockIndependence streamChecksum
            blockSizeId compressionLevel S).out, 0⟩ nerrbytes).status = 0
    ∧ renderEvents (LZ4G_decompressFramedFileStream codec overwrite false nbCalls
        ⟨(LZ4G_compressFramedFileStream contentSizeFlag blockIndependence streamChecksum
            blockSizeId compressionLevel S).out, 0⟩ nerrbytes).events = S := by
  have hbszpos : 0 < LZ4G_GetBlockSize_FromBlockId blockSizeId := Nat.pos_pow_of_pos _ (by omega)
  obtain ⟨bs, hbs⟩ : ∃ bs, LZ4G_GetBlockSize_FromBlockId blockSizeId = bs + 1 :=
    ⟨LZ4G_GetBlockSize_FromBlockId blockSizeId - 1, by omega⟩
  have hmax : bs + 1 ≤ lz4fMaxBlock := by
    rw [← hbs]
    have h22 : LZ4G_GetBlockSize_FromBlockId blockSizeId ≤ 2 ^ 22 := by
      rw [LZ4G_GetBlockSize_FromBlockId]
      exact Nat.pow_le_pow_right (by omega) (by omega)
    have hmb : lz4fMaxBlock = 2 ^ 22 := by decide
    omega
  have hout : (LZ4G_compressFramedFileStream contentSizeFlag blockIndependence streamChecksum
      blockSizeId compressionLevel S).out
      = lz4fMagicBytes ++ (compressBlocksLoop (bs + 1) S ++ lz4f_compressEnd) := by
    rw [LZ4G_compressFramedFileStream]
    dsimp only
    rw [hbs, lz4f_compressBegin, List.append_assoc]
  obtain ⟨blocks, hdec, hflat⟩ := decodeLZ4S_of_drun
    (compressBlocksLoop (bs + 1) S ++ lz4f_compressEnd) DState.done S
    (by
      have h := drun_frame bs hmax S
      rw [drun_append, drun_magicBytes] at h
      dsimp only at h
      cases hx : drun (DState.len []) (compressBlocksLoop (bs + 1) S ++ lz4f_compressEnd) with
      | none => rw [hx] at h; exact absurd h (by simp)
      | some v =>
        rw [hx] at h
        obtain ⟨stv, ov⟩ := v
        dsimp only at h
        simp only [Option.some.injEq, Prod.mk.injEq, List.nil_append] at h
        rw [h.1, h.2])
  rw [hout]
  rw [LZ4G_decompressFramedFileStream]
  dsimp only
  rw [show (lz4fMagicBytes ++ (compressBlocksLoop (bs + 1) S ++ lz4f_compressEnd)).length + 2
    = ((lz4fMagicBytes ++ (compressBlocksLoop (bs + 1) S ++ lz4f_compressEnd)).length + 1) + 1
    from rfl]
  rw [decompressLoop]
  rw [selectDecoder_frame codec overwrite _ nbCalls _ S.length (blocks.map OEvent.write)
    true hdec]
  dsimp only
  rw [show (lz4fMagicBytes ++ (compressBlocksLoop (bs + 1) S ++ lz4f_compressEnd)).length + 1
    = ((lz4fMagicBytes ++ (compressBlocksLoop (bs + 1) S ++ lz4f_compressEnd)).length) + 1
    from rfl]
  rw [decompressLoop]
  rw [selectDecoder_eos codec overwrite false _ _ _ (le_refl _)]
  dsimp only
  refine ⟨rfl, ?_⟩
  simp only [List.nil_append, List.append_nil, renderEvents_writes, hflat]

/-- A concrete legacy block codec instance for closed evaluations. -/
def codec0 : List Nat → Option (List Nat) := fun _ => none

theorem spec_C1_roundtrip_witness :
    ((4 : Nat) ≤ 7 ∧ (7 : Nat) ≤ 7)
    ∧ ((LZ4G_decompressFramedFileStream codec0 true false 0
          ⟨(LZ4G_compressFramedFileStream false true true 7 0 [1, 2, 3]).out, 0⟩ 1024).status = 0
        ∧ renderEvents (LZ4G_decompressFramedFileStream codec0 true false 0
          ⟨(LZ4G_compressFramedFileStream false true true 7 0 [1, 2, 3]).out, 0⟩ 1024).events
          = [1, 2, 3]) :=
  ⟨⟨by decide, by decide⟩,
    spec_C1_roundtrip codec0 true false true true 0 7 (by decide) (by decide) 0 1024 [1, 2, 3]⟩

/-- C2: in the sparse write cursor of the framed decoder, concatenating in
order all physically written byte spans and all skipped-over spans (each
skipped span read back as zero bytes) reconstructs exactly the original
decoded byte sequence, for every sequence of decoded buffers of one decode
session. -/
theorem spec_C2_sparse_reconstruction (blocks : List (List Nat)) :
    renderEvents (sparseSessionEvents blocks) = blocks.flatten :=
  sparseSession_render blocks

/-- C3 counterexample: the pass-through condition is NOT per decode session.
The dispatcher's call counter is a process-lifetime static that is never
reset, so only the very first dispatcher invocation of the process can pass
through.  Two successive top-level decode sessions over the same
unrecognized-header input with overwrite enabled behave differently: the
first passes the input through (4 bytes written), the second writes nothing
and reports clean end-of-input. -/
theorem spec_C3_counterexample :
    (LZ4G_decompressFramedFileStream codec0 true false 0 ⟨[9, 9, 9, 9], 0⟩ 1024).filesize = 4
    ∧ (LZ4G_decompressFramedFileStream codec0 true false 0 ⟨[9, 9, 9, 9], 0⟩ 1024).events
        = [OEvent.write [9, 9, 9, 9]]
    ∧ (LZ4G_decompressFramedFileStream codec0 true false
        (LZ4G_decompressFramedFileStream codec0 true false 0 ⟨[9, 9, 9, 9], 0⟩ 1024).nbCalls
        ⟨[9, 9, 9, 9], 0⟩ 1024).status = 0
    ∧ (LZ4G_decompressFramedFileStream codec0 true false
        (LZ4G_decompressFramedFileStream codec0 true false 0 ⟨[9, 9, 9, 9], 0⟩ 1024).nbCalls
        ⟨[9, 9, 9, 9], 0⟩ 1024).filesize = 0
    ∧ (LZ4G_decompressFramedFileStream codec0 true false
        (LZ4G_decompressFramedFileStream codec0 true false 0 ⟨[9, 9, 9, 9], 0⟩ 1024).nbCalls
        ⟨[9, 9, 9, 9], 0⟩ 1024).events = [] := by
  decide

/-- C3 (amended): the Pass-Through Fallback is invoked exactly when the
dispatcher reads an unrecognized 4-byte magic number on the very first
dispatcher invocation of the process (static call counter still 0, counting
every invocation of every session, skippable-chunk recursions included, and
never reset) with overwrite enabled; with the counter still 0 and overwrite
disabled it is a fatal error 44; on every later invocation an unrecognized
header yields the end-of-input sentinel. -/
theorem spec_C3_amended (codec : List Nat → Option (List Nat)) (overwrite sparse : Bool)
    (fuel nbCalls : Nat) (f : InFile)
    (h4 : ((f.data.drop f.pos).take MAGICNUMBER_SIZE).length = 4)
    (hskip : LZ4G_isSkippableMagicNumber
      (LZ4G_readLE32 ((f.data.drop f.pos).take MAGICNUMBER_SIZE)) = false)
    (hmag : LZ4G_readLE32 ((f.data.drop f.pos).take MAGICNUMBER_SIZE) ≠ LZ4G_MAGICNUMBER)
    (hleg : LZ4G_readLE32 ((f.data.drop f.pos).take MAGICNUMBER_SIZE) ≠ LEGACY_MAGICNUMBER) :
    LZ4G_selectDecoder codec overwrite sparse fuel nbCalls f
      = if nbCalls = 0 then
          (if overwrite then
            (SelRes.decoded (MAGICNUMBER_SIZE + (f.data.drop (f.pos + 4)).length),
              nbCalls + 1, ⟨f.data, f.data.length⟩,
              passThroughEvents ((f.data.drop f.pos).take MAGICNUMBER_SIZE)
                (f.data.drop (f.pos + 4)))
          else (SelRes.err 44 msg44, nbCalls + 1, ⟨f.data, f.pos + 4⟩, []))
        else (SelRes.eos, nbCalls + 1, ⟨f.data, f.pos + 4⟩, []) := by
  have hread : fread MAGICNUMBER_SIZE f
      = ((f.data.drop f.pos).take MAGICNUMBER_SIZE, ⟨f.data, f.pos + 4⟩) := by
    simp only [fread, h4]
  have hskip0 : LZ4G_readLE32 ((f.data.drop f.pos).take MAGICNUMBER_SIZE) ≠ LZ4G_SKIPPABLE0 := by
    intro he
    rw [he] at hskip
    exact absurd hskip (by decide)
  have hfold : (if LZ4G_isSkippableMagicNumber
        (LZ4G_readLE32 ((f.data.drop f.pos).take MAGICNUMBER_SIZE)) = true
      then LZ4G_SKIPPABLE0
      else LZ4G_readLE32 ((f.data.drop f.pos).take MAGICNUMBER_SIZE))
      = LZ4G_readLE32 ((f.data.drop f.pos).take MAGICNUMBER_SIZE) := by
    rw [hskip]
    simp
  rw [LZ4G_selectDecoder, hread]
  dsimp only
  rw [if_neg (by rw [h4]; decide), if_neg (by rw [h4]; decide), hfold,
    if_neg hmag, if_neg hleg, if_neg hskip0]
  by_cases hnb : nbCalls = 0
  · rw [if_pos (by omega : nbCalls + 1 = 1), if_pos hnb]
  · rw [if_neg (by omega : ¬nbCalls + 1 = 1), if_neg hnb]

theorem spec_C3_amended_witness :
    ((((([9, 9, 9, 9] : List Nat).drop 0).take MAGICNUMBER_SIZE).length = 4)
      ∧ LZ4G_isSkippableMagicNumber
          (LZ4G_readLE32 ((([9, 9, 9, 9] : List Nat).drop 0).take MAGICNUMBER_SIZE)) = false
      ∧ LZ4G_readLE32 ((([9, 9, 9, 9] : List Nat).drop 0).take MAGICNUMBER_SIZE)
          ≠ LZ4G_MAGICNUMBER
      ∧ LZ4G_readLE32 ((([9, 9, 9, 9] : List Nat).drop 0).take MAGICNUMBER_SIZE)
          ≠ LEGACY_MAGICNUMBER)
    ∧ LZ4G_selectDecoder codec0 true false 1 0 ⟨[9, 9, 9, 9], 0⟩
      = if (0 : Nat) = 0 then
          (if true then
            (SelRes.decoded (MAGICNUMBER_SIZE
                + ((([9, 9, 9, 9] : List Nat)).drop (0 + 4)).length),
              0 + 1, ⟨[9, 9, 9, 9], ([9, 9, 9, 9] : List Nat).length⟩,
              passThroughEvents ((([9, 9, 9, 9] : List Nat).drop 0).take MAGICNUMBER_SIZE)
                (([9, 9, 9, 9] : List Nat).drop (0 + 4)))
          else (SelRes.err 44 msg44, 0 + 1, ⟨[9, 9, 9, 9], 0 + 4⟩, []))
        else (SelRes.eos, 0 + 1, ⟨[9, 9, 9, 9], 0 + 4⟩, []) :=
  ⟨⟨by decide, by decide, by decide, by decide⟩,
    spec_C3_amended codec0 true false 1 0 ⟨[9, 9, 9, 9], 0⟩
      (by decide) (by decide) (by decide) (by decide)⟩

/-- C4: the claim says every fallible entry point writes a formatted
diagnostic into the caller buffer up to the capacity in `*nerrbytes` (at
least 1024 on entry) and returns a positive count.  The code contradicts its
own API comment (lz4g.c lines 504-513): `LZ4G_decompressFramedFileStream`
zeroes `*nerrbytes` at entry (line 619), so on a failing input (here a 1-byte
file whose header is unreadable, error 40) a positive count is returned but
nothing is stored in the buffer despite the caller's 1024-byte capacity. -/
theorem spec_C4_errbuffer_eval :
    0 < (LZ4G_decompressFramedFileStream codec0 true false 0 ⟨[66], 0⟩ 1024).status
    ∧ (LZ4G_decompressFramedFileStream codec0 true false 0 ⟨[66], 0⟩ 1024).errWritten = "" := by
  constructor
  · show 0 < (snprintfModel 0 msg40).2
    decide
  · rfl

/-- C5: the claim says the streaming decompression context is released on
every exit path of the framed decoder.  On the decompression-error path the
code returns from the `LZ4G_RETURN_ERROR` site (line 333) without reaching
`LZ4F_freeDecompressionContext` (line 416): decoding a corrupted frame whose
remaining bytes declare a block length `0xFFFFFFFF` (above the codec's 4MB
maximum) errors out with the context still allocated (`false` in the second
component). -/
theorem spec_C5_ctx_leak_eval :
    LZ4G_decodeLZ4S false [255, 255, 255, 255] = (GRes.err 66 msg66, false) := by
  have houter : decodeOuterLoop (DState.len []) [255, 255, 255, 255] = none := by
    rw [decodeOuterLoop]
    rw [show decodeInnerLoop ((([255, 255, 255, 255] : List Nat).take inBuffSize).length)
        (DState.len []) (([255, 255, 255, 255] : List Nat).take inBuffSize) = none from by decide]
  rw [LZ4G_decodeLZ4S, lz4f_header_feed]
  dsimp only
  rw [houter]

/-- C6: in the legacy block decoder, a 4-byte little-endian size field
declaring a value above `LZ4_COMPRESSBOUND(LEGACY_BLOCKSIZE)` makes the
decoder rewind the input cursor by exactly 4 bytes and return successfully
with the byte count decoded so far; the input position afterwards is the
start of the size field.  Quantified over the loop state (accumulated
`filesize`, emitted events) so it covers any number of previously decoded
blocks. -/
theorem spec_C6_legacy_rewind (codec : List Nat → Option (List Nat)) (fuel filesize : Nat)
    (f : InFile) (evs : List OEvent)
    (h4 : ((f.data.drop f.pos).take 4).length = 4)
    (hbig : LZ4_COMPRESSBOUND LEGACY_BLOCKSIZE < LZ4G_readLE32 ((f.data.drop f.pos).take 4)) :
    LZ4G_decodeLegacyStream codec (fuel + 1) filesize f evs
      = (GRes.ok filesize, ⟨f.data, f.pos⟩, evs) := by
  have hread : fread 4 f = ((f.data.drop f.pos).take 4, ⟨f.data, f.pos + 4⟩) := by
    simp only [fread, h4]
  rw [LZ4G_decodeLegacyStream, hread]
  dsimp only
  rw [if_neg (by rw [h4]; decide), if_pos hbig,
    show f.pos + 4 - 4 = f.pos from by omega]

theorem spec_C6_legacy_rewind_witness :
    (((([255, 255, 255, 255] : List Nat).drop 0).take 4).length = 4
      ∧ LZ4_COMPRESSBOUND LEGACY_BLOCKSIZE
          < LZ4G_readLE32 ((([255, 255, 255, 255] : List Nat).drop 0).take 4))
    ∧ LZ4G_decodeLegacyStream codec0 (0 + 1) 7 ⟨[255, 255, 255, 255], 0⟩ [OEvent.write [1]]
      = (GRes.ok 7, ⟨[255, 255, 255, 255], 0⟩, [OEvent.write [1]]) :=
  ⟨⟨by decide, by decide⟩,
    spec_C6_legacy_rewind codec0 0 7 ⟨[255, 255, 255, 255], 0⟩ [OEvent.write [1]]
      (by decide) (by decide)⟩

/-- C7: in sparse mode, at decode-session end, a positive pending skip `p`
is realized as a forward seek of `p - 1` bytes followed by exactly one
physical zero byte, and the rendered output length equals the total decoded
byte count. -/
theorem spec_C7_final_flush (blocks : List (List Nat))
    (hpos : 0 < (sparseWriteBlocks 0 blocks).2) :
    sparseSessionEvents blocks
      = (sparseWriteBlocks 0 blocks).1
        ++ [OEvent.skip ((sparseWriteBlocks 0 blocks).2 - 1), OEvent.write [0]]
    ∧ (renderEvents (sparseSessionEvents blocks)).length = blocks.flatten.length := by
  constructor
  · rw [sparseSessionEvents, sparseFinish, if_pos hpos]
  · rw [sparseSession_render]

theorem spec_C7_final_flush_witness :
    0 < (sparseWriteBlocks 0 [List.replicate 8 0]).2
    ∧ (sparseSessionEvents [List.replicate 8 0]
        = (sparseWriteBlocks 0 [List.replicate 8 0]).1
          ++ [OEvent.skip ((sparseWriteBlocks 0 [List.replicate 8 0]).2 - 1), OEvent.write [0]]
      ∧ (renderEvents (sparseSessionEvents [List.replicate 8 0])).length
          = ([List.replicate 8 0] : List (List Nat)).flatten.length) :=
  ⟨by decide, spec_C7_final_flush [List.replicate 8 0] (by decide)⟩

/-- Helper for C8: the driver loop over an arbitrary prefix of clean
dispatcher outcomes, generalized over the running total. -/
theorem decompressStreamLoopModel_go (pre : List (Nat × Nat)) :
    ∀ (acc e s : Nat) (rest : List (Nat × Nat)),
    (∀ p ∈ pre, p.1 = 0 ∧ p.2 ≠ ENDOFSTREAM) → (e ≠ 0 ∨ s = ENDOFSTREAM) →
    decompressStreamLoopModel (pre ++ (e, s) :: rest) acc
      = some (if e ≠ 0 then e else 0, acc + (pre.map Prod.snd).sum, pre.length + 1) := by
  induction pre with
  | nil =>
    intro acc e s rest _ hterm
    simp only [List.nil_append, decompressStreamLoopModel]
    by_cases he : e ≠ 0
    · rw [if_pos he, if_pos he]
      simp
    · rw [if_neg he, if_neg he]
      rcases hterm with ht | ht
      · exact absurd ht he
      · rw [if_pos ht]
        simp
  | cons p t ih =>
    intro acc e s rest hpre hterm
    obtain ⟨r0, s0⟩ := p
    obtain ⟨hr0, hs0⟩ := hpre (r0, s0) (by simp)
    simp only [List.cons_append, decompressStreamLoopModel, hr0, List.append_eq]
    rw [if_neg (by omega), if_neg hs0,
      ih (acc + s0) e s rest (fun q hq => hpre q (by simp [hq])) hterm]
    simp only [List.map_cons, List.sum_cons, List.length_cons, Option.some.injEq,
      Prod.mk.injEq]
    exact ⟨trivial, by omega, trivial⟩

/-- C8: the multi-stream driver loop (lz4g.c lines 627-636), over every
sequence of dispatcher outcomes: it accumulates every decoded-byte count
reported before the terminator, stops at the first end-of-input sentinel or
error, returns the dispatcher's error code on the first non-zero result, and
consumes exactly the outcomes up to and including the terminating one (the
dispatcher is not invoked again after an error). -/
theorem spec_C8_driver_loop (pre : List (Nat × Nat)) (e s : Nat) (rest : List (Nat × Nat))
    (hpre : ∀ p ∈ pre, p.1 = 0 ∧ p.2 ≠ ENDOFSTREAM)
    (hterm : e ≠ 0 ∨ s = ENDOFSTREAM) :
    decompressStreamLoopModel (pre ++ (e, s) :: rest) 0
      = some (if e ≠ 0 then e else 0, (pre.map Prod.snd).sum, pre.length + 1) := by
  rw [decompressStreamLoopModel_go pre 0 e s rest hpre hterm, Nat.zero_add]

theorem spec_C8_driver_loop_witness :
    ((∀ p ∈ ([(0, 5), (0, 7)] : List (Nat × Nat)), p.1 = 0 ∧ p.2 ≠ ENDOFSTREAM)
      ∧ ((3 : Nat) ≠ 0 ∨ (2 : Nat) = ENDOFSTREAM))
    ∧ decompressStreamLoopModel ([(0, 5), (0, 7)] ++ (3, 2) :: [(0, 1)]) 0
      = some (if (3 : Nat) ≠ 0 then 3 else 0,
          (([(0, 5), (0, 7)] : List (Nat × Nat)).map Prod.snd).sum,
          ([(0, 5), (0, 7)] : List (Nat × Nat)).length + 1) :=
  ⟨⟨by decide, by decide⟩,
    spec_C8_driver_loop [(0, 5), (0, 7)] 3 2 [(0, 1)] (by decide) (by decide)⟩

/-- C9: the two little-endian codecs are mutual inverses: reading after
writing returns the 32-bit value, and writing after reading reproduces any
4-byte buffer. -/
theorem spec_C9_le32_roundtrip (v b0 b1 b2 b3 : Nat) (hv : v < 2 ^ 32)
    (h0 : b0 < 256) (h1 : b1 < 256) (h2 : b2 < 256) (h3 : b3 < 256) :
    LZ4G_readLE32 (LZ4G_writeLE32 v) = v
    ∧ LZ4G_writeLE32 (LZ4G_readLE32 [b0, b1, b2, b3]) = [b0, b1, b2, b3] :=
  ⟨readLE32_writeLE32 v hv, writeLE32_readLE32 b0 b1 b2 b3 h0 h1 h2 h3⟩

theorem spec_C9_le32_roundtrip_witness :
    ((305419896 : Nat) < 2 ^ 32 ∧ (17 : Nat) < 256 ∧ (34 : Nat) < 256
      ∧ (51 : Nat) < 256 ∧ (68 : Nat) < 256)
    ∧ (LZ4G_readLE32 (LZ4G_writeLE32 305419896) = 305419896
      ∧ LZ4G_writeLE32 (LZ4G_readLE32 [17, 34, 51, 68]) = [17, 34, 51, 68]) :=
  ⟨⟨by decide, by decide, by decide, by decide, by decide⟩,
    spec_C9_le32_roundtrip 305419896 17 34 51 68
      (by decide) (by decide) (by decide) (by decide) (by decide)⟩

/-- C10: with the content-size-announcement flag enabled,
`LZ4G_compressFramedFileStream` always announces a frame content size of 0,
whatever the input stream is (lz4g.c lines 543-547: the file-size lookup is
commented out and the local is initialized to 0). -/
theorem spec_C10_contentsize_zero (blockIndependence streamChecksum : Bool)
    (compressionLevel : Int) (blockSizeId : Nat) (finput : List Nat) :
    (LZ4G_compressFramedFileStream true blockIndependence streamChecksum
        blockSizeId compressionLevel finput).prefs.contentSize = 0 := rfl
